import Mathlib

/-!
Verification development for the audio chunking / transcription pipeline and
the concurrent document-synthesis orchestrator of the vi-speech-to-text
repository.

The Python source computes several quantities in IEEE binary64 ("double")
floating-point arithmetic (`int(target_duration * 0.7)`, the byte-density
divisions of `_estimate_chunk_duration`, and the `progress` property).  To
embed these faithfully we model binary64 values as dyadic rationals
`num / 2 ^ sh` (type `Dy` below) and implement correctly rounded
(round-to-nearest, ties-to-even) division and the multiplication by the
double literal `0.7` exactly, using only natural-number arithmetic.  The
binary64 value of the literal `0.7` is `6305039478318694 / 2 ^ 53`; all
quantities appearing in the programs are far below the overflow threshold,
so an unbounded exponent range is a faithful model.

External effects (ffmpeg/ffprobe processes, the remote transcription and
generation services, pdflatex) are modelled as oracle functions supplied as
parameters: the byte size returned by an export invocation, the text
returned by the generation service, the outcome of a pdflatex run.
-/

set_option maxRecDepth 20000

/-! ## Dyadic binary64 emulation -/

/-- Number of binary digits of `p`, computed with explicit structural fuel
(`p < 2 ^ (p + 1)` always holds, so fuel `p + 1` is sufficient for any `p`). -/
def bitsAux : Nat → Nat → Nat
  | 0, _ => 0
  | fuel + 1, p => if p = 0 then 0 else bitsAux fuel (p / 2) + 1

/-- Bit length of a natural number: `bitlen 0 = 0`, otherwise the unique `b`
with `2 ^ (b - 1) ≤ p < 2 ^ b`. -/
def bitlen (p : Nat) : Nat := bitsAux (p + 1) p

/-- Round the rational `p / q` to the nearest integer, ties to even. -/
def roundNEdiv (p q : Nat) : Nat :=
  let u := p / q
  let r := p % q
  if 2 * r < q then u
  else if q < 2 * r then u + 1
  else if u % 2 = 0 then u else u + 1

/-- A nonnegative dyadic rational `num / 2 ^ sh`, used to represent binary64
values exactly (the exponent range of binary64 is never exceeded by the
programs under study). -/
structure Dy where
  num : Nat
  sh : Nat
deriving DecidableEq

/-- The rational value of a dyadic number. -/
def dyVal (x : Dy) : ℚ := (x.num : ℚ) / 2 ^ x.sh

/-- The nearest binary64 value to the rational `a / b` (round-to-nearest,
ties-to-even, unbounded exponent), for `b ≥ 1`.  This is the exact result of
an IEEE double division of `a` by `b`, and also of converting an integer `a`
to a double (take `b = 1`). -/
def fround53 (a b : Nat) : Dy :=
  if a = 0 then ⟨0, 0⟩ else
  let shift := 53 + bitlen b
  let t := bitlen (a * 2 ^ shift / b)
  let m := roundNEdiv (a * 2 ^ (shift + 53)) (b * 2 ^ t)
  if 53 + shift ≤ t then ⟨m * 2 ^ (t - (53 + shift)), 0⟩ else ⟨m, 53 + shift - t⟩

/-- Conversion of a natural number to binary64 (exact for `n < 2 ^ 53`). -/
def fofNat (n : Nat) : Dy := fround53 n 1

/-- IEEE binary64 division of two doubles represented as dyadics. -/
def fdivD (x y : Dy) : Dy := fround53 (x.num * 2 ^ y.sh) (y.num * 2 ^ x.sh)

/-- Python `int()` truncation of a nonnegative double. -/
def dyFloor (x : Dy) : Nat := x.num / 2 ^ x.sh

/-- Comparison of two doubles (exact rational comparison). -/
def dyLe (x y : Dy) : Bool := x.num * 2 ^ y.sh ≤ y.num * 2 ^ x.sh

/-- Python `min` of two doubles (returns the first argument on ties). -/
def dyMin (x y : Dy) : Dy := if dyLe x y then x else y

/-- The double `1.0`. -/
def dyOne : Dy := ⟨1, 0⟩

/-- Python `max(x, 1.0)` on doubles. -/
def dyMax1 (x : Dy) : Dy := if x.num < 2 ^ x.sh then dyOne else x

/-- Numerator of the binary64 literal `0.7`, whose exact value is
`6305039478318694 / 2 ^ 53`. -/
def FLOAT07_NUM : Nat := 6305039478318694

/-- Exact value of the Python expression `int(t * 0.7)` for a nonnegative
integer `t`: convert `t` to double, multiply by the double `0.7` with correct
rounding, truncate. -/
def mul07floor (t : Nat) : Nat :=
  let x := fofNat t
  dyFloor (fround53 (x.num * FLOAT07_NUM) (2 ^ (x.sh + 53)))

/-! ## Transcription module model (`transcription.py`) -/

/-- `_MAX_CHUNK_BYTES = 24 * 1024 * 1024`. -/
def MAX_CHUNK_BYTES : Nat := 24 * 1024 * 1024

/-- `_MIN_CHUNK_MS = 5_000`. -/
def MIN_CHUNK_MS : Nat := 5000

/-- `_SUPPORTED_EXTENSIONS` (a Python set; listed here in source order). -/
def SUPPORTED_EXTENSIONS : List String :=
  ["mp3", "mp4", "mpeg", "mpga", "m4a", "ogg", "wav", "webm"]

/-- Split a character list at every `'/'` (the pieces between separators,
empty pieces included). -/
def splitSlash : List Char → List (List Char)
  | [] => [[]]
  | c :: cs =>
    let r := splitSlash cs
    if c = '/' then [] :: r
    else (c :: r.headD []) :: r.tail

/-- `Path(filename).name` under POSIX parsing: pathlib splits on `'/'` and
drops empty components and `"."` components, so trailing separators and
`/.` do not hide the name (`Path("x.mp3/").name = "x.mp3"`); the name is the
last remaining component, or empty when none remains. -/
def pathFinalComponent (filename : String) : List Char :=
  ((splitSlash filename.toList).filter
    (fun c => !c.isEmpty && c ≠ ['.'])).getLastD []

/-- `Path(filename).suffix.lower().lstrip(".")`: the extension of the final
path component (text after its last dot, provided the dot is neither the
first nor the last character of the component), lower-cased, with the
leading dot removed.  Implemented over character lists so that it evaluates
by kernel reduction. -/
def extOf (filename : String) : String :=
  let nm := pathFinalComponent filename
  let tl := nm.reverse.takeWhile (fun c => c ≠ '.')
  if '.' ∈ nm ∧ 1 ≤ tl.length ∧ tl.length < nm.length - 1 then
    ⟨tl.reverse.map Char.toLower⟩
  else ""

/-- Error message of `UnsupportedAudioFormatError` (the supported set is
rendered sorted, comma-separated). -/
def UNSUPPORTED_FORMAT_MSG : String :=
  "Unsupported audio type. Please upload one of: m4a, mp3, mp4, mpeg, mpga, ogg, wav, webm"

/-- `_infer_audio_format`: return the lower-cased extension when it is
supported, otherwise fail with `UnsupportedAudioFormatError`. -/
def inferAudioFormat (filename : String) : Except String String :=
  let sfx := extOf filename
  if SUPPORTED_EXTENSIONS.contains sfx then Except.ok sfx
  else Except.error UNSUPPORTED_FORMAT_MSG

/-- The statements of `chunked_transcription` that execute before the chunk
loop, in source order: the format check runs first and raises before the
client is constructed, the upload is materialised to disk, or ffprobe runs.
The returned list names the external/effectful steps that are reached. -/
def chunkedTranscriptionPrelude (filename : String) :
    List String × Except String String :=
  match inferAudioFormat filename with
  | Except.error e => ([], Except.error e)
  | Except.ok fmt =>
      (["create_openai_client", "prepare_local_audio_file", "probe_audio_metadata"],
        Except.ok fmt)

/-- `_AudioMetadata`. -/
structure AudioMetadata where
  durationMs : Nat
  bitRate : Option Nat
deriving DecidableEq

/-- Decision tail of `_probe_audio_metadata` (lines 195-201), taking the
result of `_extract_duration_seconds` (first truthy, i.e. nonzero, duration
found in the ffprobe JSON) and `_extract_bit_rate` as inputs, the probing and
extraction of the external tool's output being abstracted.  The duration is
a parsed number; the multiplication by 1000 is modelled exactly (the claimed
properties are insensitive to its final-ulp rounding). -/
def probeAudioMetadata (durationSeconds : Option ℚ) (bitRate : Option Nat) :
    Except String AudioMetadata :=
  match durationSeconds with
  | none => Except.error "Unable to determine audio duration from the provided file."
  | some ds =>
      if ds ≤ 0 then
        Except.error "Unable to determine audio duration from the provided file."
      else
        Except.ok ⟨max ⌊ds * 1000⌋₊ 1, bitRate⟩

/-- `bytes_per_ms` of `_estimate_chunk_duration`: `None`, or a binary64
value.  Python truthiness: `if bit_rate:` is taken for a present, nonzero
bit rate; `elif duration_ms:` for a nonzero duration. -/
def bytesPerMs (durationMs : Nat) (bitRate : Option Nat) (fileSize : Nat) :
    Option Dy :=
  if bitRate.getD 0 ≠ 0 then
    some (dyMax1 (fdivD (fdivD (fofNat (bitRate.getD 0)) (fofNat 8)) (fofNat 1000)))
  else if durationMs ≠ 0 then
    some (dyMax1 (fdivD (fofNat fileSize) (fofNat (max durationMs 1))))
  else none

/-- `_estimate_chunk_duration`: `int(max_chunk_bytes / bytes_per_ms)` when a
byte density is available (it is then ≥ 1.0, hence truthy), else the whole
byte budget; floored below at `_MIN_CHUNK_MS`. -/
def estimateChunkDuration (durationMs : Nat) (bitRate : Option Nat)
    (fileSize maxChunkBytes : Nat) : Nat :=
  match bytesPerMs durationMs bitRate fileSize with
  | some bpm => max (dyFloor (fdivD (fofNat maxChunkBytes) bpm)) MIN_CHUNK_MS
  | none => max maxChunkBytes MIN_CHUNK_MS

/-- The estimator as claim C6 states it, with the divisions and the floor
taken in exact rational arithmetic (`bytes_per_ms = max((bit_rate/8)/1000, 1)`
or `max(file_size / duration_ms, 1)`, result `floor(byte_budget /
bytes_per_ms)` floored below at the minimum chunk duration; with no density
signal the whole byte budget is used). -/
def estimateChunkDurationClaimExact (durationMs : Nat) (bitRate : Option Nat)
    (fileSize maxChunkBytes : Nat) : Nat :=
  if bitRate.getD 0 ≠ 0 then
    max ⌊(maxChunkBytes : ℚ) / max ((bitRate.getD 0 : ℚ) / 8 / 1000) 1⌋₊ MIN_CHUNK_MS
  else if durationMs ≠ 0 then
    max ⌊(maxChunkBytes : ℚ) / max ((fileSize : ℚ) / durationMs) 1⌋₊ MIN_CHUNK_MS
  else
    max maxChunkBytes MIN_CHUNK_MS

/-- The estimator as amended for claim C6: the same algorithm with the
divisions, the `max` with 1, and the truncation performed in IEEE binary64
arithmetic, exactly as the source computes them. -/
def estimateChunkDurationAmended (durationMs : Nat) (bitRate : Option Nat)
    (fileSize maxChunkBytes : Nat) : Nat :=
  if bitRate.getD 0 ≠ 0 then
    max (dyFloor (fdivD (fofNat maxChunkBytes)
      (dyMax1 (fdivD (fdivD (fofNat (bitRate.getD 0)) (fofNat 8)) (fofNat 1000)))))
      MIN_CHUNK_MS
  else if durationMs ≠ 0 then
    max (dyFloor (fdivD (fofNat maxChunkBytes)
      (dyMax1 (fdivD (fofNat fileSize) (fofNat (max durationMs 1)))))) MIN_CHUNK_MS
  else
    max maxChunkBytes MIN_CHUNK_MS

/-- `ChunkTranscript`. -/
structure ChunkTranscript where
  chunk_index : Nat
  start_ms : Nat
  end_ms : Nat
  total_ms : Nat
  text : String
deriving DecidableEq

/-- The `progress` property:
`min(self.end_ms / self.total_ms, 1.0) if self.total_ms else 0.0`, with the
division performed in binary64. -/
def ChunkTranscript.progress (c : ChunkTranscript) : Dy :=
  if c.total_ms ≠ 0 then dyMin (fdivD (fofNat c.end_ms) (fofNat c.total_ms)) dyOne
  else ⟨0, 0⟩

/-- One accepted segment yielded by `_generate_chunks`: the tuple
`(chunk_index, start_ms, end_ms, payload)`, with the payload represented by
its measured byte size. -/
structure Chunk where
  chunk_index : Nat
  start_ms : Nat
  end_ms : Nat
  size_bytes : Nat
deriving DecidableEq

/-- The loop of `_generate_chunks` (lines 309-337).  State: cursor
`start`, next index `idx`, current target duration `target` (on entry to the
inner `while True` loop the target is `min approx (total - start)`).
`size s d` is the byte size measured for an export of `[s, s + d)` — an
oracle for the external ffmpeg invocation, universally quantified in the
theorems.  Returns the list of export invocations `(start, duration)` in
order, the accepted chunks, and `true` for normal completion / `false` for
the `ChunkTooLarge` failure ("Chunk remained above the upload limit even at
the minimum length").  `fuel` bounds the number of export invocations;
`none` means the fuel was exhausted (termination is proved separately). -/
def chunkLoop (size : Nat → Nat → Nat) (maxChunkBytes approx total : Nat) :
    Nat → Nat → Nat → Nat → Option (List (Nat × Nat) × List Chunk × Bool)
  | 0, _, _, _ => none
  | fuel + 1, start, idx, target =>
    let sz := size start target
    if sz ≤ maxChunkBytes then
      let c : Chunk := ⟨idx, start, start + target, sz⟩
      if start + target < total then
        match chunkLoop size maxChunkBytes approx total fuel (start + target)
            (idx + 1) (min approx (total - (start + target))) with
        | none => none
        | some (tr, cs, ok) => some ((start, target) :: tr, c :: cs, ok)
      else some ([(start, target)], [c], true)
    else if target ≤ MIN_CHUNK_MS then some ([(start, target)], [], false)
    else
      match chunkLoop size maxChunkBytes approx total fuel start idx
          (max MIN_CHUNK_MS (mul07floor target)) with
      | none => none
      | some (tr, cs, ok) => some ((start, target) :: tr, cs, ok)

/-- `_generate_chunks`: the outer `while start_ms < total_ms` loop started at
cursor 0, index 0. -/
def genChunks (size : Nat → Nat → Nat) (maxChunkBytes approx total fuel : Nat) :
    Option (List (Nat × Nat) × List Chunk × Bool) :=
  if total = 0 then some ([], [], true)
  else chunkLoop size maxChunkBytes approx total fuel 0 0 (min approx total)

/-- `tiles cs lo hi`: the chunks `cs` cover `[lo, hi)` contiguously, in
increasing order, each segment nonempty, first start `lo`, last end `hi`. -/
def tiles : List Chunk → Nat → Nat → Bool
  | [], lo, hi => lo = hi
  | c :: cs, lo, hi => c.start_ms = lo && lo < c.end_ms && tiles cs c.end_ms hi

/-! ## Postprocess module model (`postprocess.py`) -/

/-- `STUDY_NOTES_PROMPT` (the prompt is a long fixed natural-language/LaTeX
instruction text; its content is irrelevant to the orchestration properties,
so it is represented by an abbreviated stand-in). -/
def STUDY_NOTES_PROMPT : String := "study-notes generation instructions"

/-- `SPOKEN_STYLE_PROMPT` (abbreviated stand-in, as above). -/
def SPOKEN_STYLE_PROMPT : String := "spoken-script generation instructions"

/-- `GeneratedDocument`. -/
structure GeneratedDocument where
  key : String
  title : String
  latex : String
  pdf_bytes : List Nat
  latex_filename : String
  pdf_filename : String
deriving DecidableEq

/-- The fixed `tasks` tuple of `generate_latex_documents`:
`(key, title, prompt)` descriptors in their fixed order. -/
def DOCUMENT_TASKS : List (String × String × String) :=
  [("study-notes", "LaTeX – notatki", STUDY_NOTES_PROMPT),
   ("spoken-script", "LaTeX – zapis mówiony", SPOKEN_STYLE_PROMPT)]

/-- `_call_gpt_latex`: call the generation service (modelled by the oracle
`respond`, which receives the system prompt and the marker-wrapped
transcript) and fail when the response text is empty after stripping. -/
def callGptLatex (respond : String → String → String)
    (prompt transcript : String) : Except String String :=
  let text := respond prompt
    ("BEGIN_TRANSCRIPT\n" ++ transcript ++ "\nEND_TRANSCRIPT")
  if text.toList.all Char.isWhitespace then
    Except.error "GPT returned an empty LaTeX document."
  else Except.ok text

/-- `_generate_single_document`: generation then compilation (`_compile_pdf`
is an external two-pass pdflatex invocation, modelled by the oracle
`compilePdf` mapping the LaTeX source to the produced PDF bytes or a
failure message). -/
def generateSingleDocument (respond : String → String → String)
    (compilePdf : String → Except String (List Nat))
    (key title prompt transcript : String) : Except String GeneratedDocument :=
  match callGptLatex respond prompt transcript with
  | Except.error e => Except.error e
  | Except.ok latex =>
      match compilePdf latex with
      | Except.error e => Except.error e
      | Except.ok bytes =>
          Except.ok ⟨key, title, latex, bytes, key ++ ".tex", key ++ ".pdf"⟩

/-- The `ordering` dict of `generate_latex_documents`: index of a key in the
fixed task order. -/
def taskOrderIndex (k : String) : Nat := (DOCUMENT_TASKS.map (fun t => t.1)).indexOf k

/-- `generate_latex_documents`.  The thread pool completes the two tasks in
an arbitrary order; `completion` is the task list in completion order (the
theorems quantify over all permutations of `DOCUMENT_TASKS`).  Results and
errors are collected in completion order; if any task failed the whole call
fails with the aggregate message, otherwise the documents are sorted back
into the fixed task order (a stable sort, as Python's). -/
def generateLatexDocuments (respond : String → String → String)
    (compilePdf : String → Except String (List Nat)) (transcript : String)
    (completion : List (String × String × String)) :
    Except String (List GeneratedDocument) :=
  let results := completion.map (fun task =>
    (task.1, generateSingleDocument respond compilePdf task.1 task.2.1 task.2.2 transcript))
  let documents := results.filterMap (fun kr => kr.2.toOption)
  let errors := results.filterMap (fun kr =>
    match kr.2 with
    | Except.error e => some (kr.1, e)
    | Except.ok _ => none)
  if errors.isEmpty then
    Except.ok (List.insertionSort
      (fun d1 d2 => taskOrderIndex d1.key ≤ taskOrderIndex d2.key) documents)
  else
    Except.error ("Failed to generate all LaTeX documents: " ++
      String.intercalate "; " (errors.map (fun ke => ke.1 ++ ": " ++ ke.2)))

/-! ## Arithmetic infrastructure lemmas -/

theorem bitsAux_zero (fuel : Nat) : bitsAux fuel 0 = 0 := by
  cases fuel <;> simp [bitsAux]

theorem bitsAux_spec : ∀ fuel p, p < 2 ^ fuel → 1 ≤ p →
    2 ^ (bitsAux fuel p - 1) ≤ p ∧ p < 2 ^ bitsAux fuel p := by
  intro fuel
  induction fuel with
  | zero => intro p hlt hp; simp at hlt; omega
  | succ n ih =>
    intro p hlt hp
    have hpne : p ≠ 0 := by omega
    rw [bitsAux, if_neg hpne]
    by_cases hp2 : p / 2 = 0
    · have hp1 : p = 1 := by omega
      subst hp1
      simp [hp2, bitsAux_zero]
    · have hdiv : p / 2 < 2 ^ n := by
        have hs := pow_succ 2 n
        omega
      obtain ⟨h1, h2⟩ := ih (p / 2) hdiv (by omega)
      obtain ⟨k, hk⟩ : ∃ k, bitsAux n (p / 2) = k + 1 := by
        rcases Nat.eq_zero_or_pos (bitsAux n (p / 2)) with h0 | hpos
        · rw [h0] at h2; simp at h2; omega
        · exact ⟨bitsAux n (p / 2) - 1, by omega⟩
      rw [hk] at h1 h2 ⊢
      simp only [Nat.add_sub_cancel] at h1 ⊢
      have e1 : 2 ^ (k + 1) = 2 * 2 ^ k := by rw [pow_succ]; ring
      have e2 : 2 ^ (k + 1 + 1) = 2 * 2 ^ (k + 1) := by rw [pow_succ]; ring
      omega

theorem bitlen_spec (p : Nat) (hp : 1 ≤ p) :
    2 ^ (bitlen p - 1) ≤ p ∧ p < 2 ^ bitlen p := by
  have h : p < 2 ^ (p + 1) :=
    lt_of_lt_of_le (Nat.lt_two_pow p)
      (Nat.pow_le_pow_right (by norm_num) (Nat.le_succ p))
  exact bitsAux_spec (p + 1) p h hp

theorem bitlen_pos (p : Nat) (hp : 1 ≤ p) : 1 ≤ bitlen p := by
  obtain ⟨_, h2⟩ := bitlen_spec p hp
  by_contra hc
  have h0 : bitlen p = 0 := by omega
  rw [h0] at h2
  simp at h2
  omega

theorem bitlen_two_pow (k : Nat) : bitlen (2 ^ k) = k + 1 := by
  have hp : 1 ≤ 2 ^ k := Nat.one_le_two_pow
  obtain ⟨h1, h2⟩ := bitlen_spec (2 ^ k) hp
  have hb : 1 ≤ bitlen (2 ^ k) := bitlen_pos _ hp
  have hk : k < bitlen (2 ^ k) := (Nat.pow_lt_pow_iff_right (by norm_num)).mp h2
  have hk2 : bitlen (2 ^ k) - 1 ≤ k :=
    (Nat.pow_le_pow_iff_right (by norm_num)).mp h1
  omega

theorem roundNEdiv_ge (p q : Nat) : p / q ≤ roundNEdiv p q := by
  simp only [roundNEdiv]
  split_ifs <;> omega

theorem roundNEdiv_exact (p q : Nat) (h : q ∣ p) (hq : 0 < q) :
    roundNEdiv p q = p / q := by
  have hr : p % q = 0 := Nat.dvd_iff_mod_eq_zero.mp h
  simp only [roundNEdiv, hr]
  split_ifs <;> omega

theorem roundNEdiv_mul_le (p q : Nat) (hq : 0 < q) :
    2 * q * roundNEdiv p q ≤ 2 * p + q := by
  have hmod := Nat.div_add_mod p q
  have hlt : p % q < q := Nat.mod_lt p hq
  have e1 : 2 * q * (p / q) = 2 * (q * (p / q)) := by ring
  have e2 : 2 * q * (p / q + 1) = 2 * (q * (p / q)) + 2 * q := by ring
  simp only [roundNEdiv]
  split_ifs with h1 h2 h3
  · rw [e1]; omega
  · rw [e2]; omega
  · rw [e1]; omega
  · rw [e2]; omega

theorem fround53_def (a b : Nat) (hane : a ≠ 0) :
    fround53 a b =
      if 53 + (53 + bitlen b) ≤ bitlen (a * 2 ^ (53 + bitlen b) / b) then
        ⟨roundNEdiv (a * 2 ^ ((53 + bitlen b) + 53))
            (b * 2 ^ bitlen (a * 2 ^ (53 + bitlen b) / b)) *
          2 ^ (bitlen (a * 2 ^ (53 + bitlen b) / b) - (53 + (53 + bitlen b))), 0⟩
      else
        ⟨roundNEdiv (a * 2 ^ ((53 + bitlen b) + 53))
            (b * 2 ^ bitlen (a * 2 ^ (53 + bitlen b) / b)),
          53 + (53 + bitlen b) - bitlen (a * 2 ^ (53 + bitlen b) / b)⟩ := by
  unfold fround53
  rw [if_neg hane]

theorem dyVal_pack (m t s : Nat) :
    dyVal (if s ≤ t then (⟨m * 2 ^ (t - s), 0⟩ : Dy) else ⟨m, s - t⟩) * 2 ^ s =
      (m : ℚ) * 2 ^ t := by
  split_ifs with h
  · unfold dyVal
    simp only [pow_zero]
    push_cast
    rw [div_one, mul_assoc, ← pow_add]
    congr 2
    omega
  · unfold dyVal
    simp only []
    have hsplit : (2 : ℚ) ^ s = 2 ^ (s - t) * 2 ^ t := by
      rw [← pow_add]
      congr 1
      omega
    rw [hsplit]
    have hne : (2 : ℚ) ^ (s - t) ≠ 0 := by positivity
    field_simp
    ring

theorem fround53_facts (a b : Nat) (ha : 1 ≤ a) (hb : 1 ≤ b) :
    1 ≤ (fround53 a b).num ∧
      dyVal (fround53 a b) * 2 ^ 53 ≤ ((a : ℚ) / b) * (2 ^ 53 + 1) := by
  have hane : a ≠ 0 := by omega
  have hfr := fround53_def a b hane
  set shift := 53 + bitlen b with hshiftdef
  set Q := a * 2 ^ shift / b with hQdef
  set t := bitlen Q with htdef
  set m := roundNEdiv (a * 2 ^ (shift + 53)) (b * 2 ^ t) with hmdef
  -- basic size facts
  have hble : b ≤ a * 2 ^ shift := by
    have hblt : b < 2 ^ bitlen b := (bitlen_spec b hb).2
    have h1 : (2 : Nat) ^ bitlen b ≤ 2 ^ shift :=
      Nat.pow_le_pow_right (by norm_num) (by omega)
    have h2 : (2 : Nat) ^ shift ≤ a * 2 ^ shift := Nat.le_mul_of_pos_left _ ha
    omega
  have hQ1 : 1 ≤ Q := (Nat.one_le_div_iff (by omega)).mpr hble
  have ht1 : 1 ≤ t := bitlen_pos Q hQ1
  have hQlow : 2 ^ (t - 1) ≤ Q := (bitlen_spec Q hQ1).1
  have hQmul : Q * b ≤ a * 2 ^ shift := Nat.div_mul_le_self _ _
  have hF1 : b * 2 ^ (t - 1) ≤ a * 2 ^ shift := by
    have h1 : b * 2 ^ (t - 1) ≤ b * Q := Nat.mul_le_mul_left b hQlow
    have h2 : b * Q = Q * b := Nat.mul_comm b Q
    omega
  -- the mantissa is positive
  have hdenle : b * 2 ^ t ≤ a * 2 ^ (shift + 53) := by
    obtain ⟨k, hk⟩ : ∃ k, t = k + 1 := ⟨t - 1, by omega⟩
    have e1 : b * 2 ^ t = b * 2 ^ (t - 1) * 2 := by
      rw [hk]
      simp [pow_succ]
      ring
    have e2 : a * 2 ^ (shift + 53) = a * 2 ^ shift * 2 ^ 53 := by
      rw [pow_add]
      ring
    have h2 : a * 2 ^ shift * 2 ≤ a * 2 ^ shift * 2 ^ 53 :=
      Nat.mul_le_mul_left _ (by norm_num)
    have h3 : b * 2 ^ (t - 1) * 2 ≤ a * 2 ^ shift * 2 := Nat.mul_le_mul_right _ hF1
    omega
  have hm1 : 1 ≤ m := by
    have hu : 1 ≤ a * 2 ^ (shift + 53) / (b * 2 ^ t) :=
      (Nat.one_le_div_iff (by positivity)).mpr hdenle
    have := roundNEdiv_ge (a * 2 ^ (shift + 53)) (b * 2 ^ t)
    omega
  -- value bound
  have hpack : dyVal (fround53 a b) * 2 ^ (53 + shift) = (m : ℚ) * 2 ^ t := by
    rw [hfr]
    exact dyVal_pack m t (53 + shift)
  have hF2 : 2 * (b * 2 ^ t) * m ≤ 2 * (a * 2 ^ (shift + 53)) + b * 2 ^ t :=
    roundNEdiv_mul_le _ _ (by positivity)
  clear_value m t Q shift
  have key : (m : ℚ) * 2 ^ t * b ≤ a * 2 ^ (shift + 53) + a * 2 ^ shift := by
    obtain ⟨k, hk⟩ : ∃ k, t = k + 1 := ⟨t - 1, by omega⟩
    have hF2q : 2 * ((b : ℚ) * 2 ^ t) * m ≤ 2 * (a * 2 ^ (shift + 53)) + b * 2 ^ t := by
      exact_mod_cast hF2
    have hF1q : (b : ℚ) * 2 ^ (t - 1) ≤ a * 2 ^ shift := by exact_mod_cast hF1
    have hts : (2 : ℚ) ^ t = 2 * 2 ^ (t - 1) := by
      rw [hk]
      simp [pow_succ]
      ring
    rw [hts] at hF2q ⊢
    nlinarith [hF2q, hF1q]
  constructor
  · rw [hfr]
    split_ifs with h
    · show 1 ≤ m * 2 ^ (t - (53 + shift))
      have h2 : (1 : Nat) ≤ 2 ^ (t - (53 + shift)) := Nat.one_le_two_pow
      exact Nat.one_le_iff_ne_zero.mpr (Nat.mul_ne_zero (by omega) (by omega))
    · exact hm1
  · have hbq : (0 : ℚ) < b := by positivity
    have hsq : (0 : ℚ) < 2 ^ shift := by positivity
    rw [div_mul_eq_mul_div, le_div_iff₀ hbq]
    have hgoal2 : dyVal (fround53 a b) * 2 ^ 53 * b * 2 ^ shift ≤
        (a : ℚ) * (2 ^ 53 + 1) * 2 ^ shift := by
      have e1 : dyVal (fround53 a b) * 2 ^ 53 * b * 2 ^ shift =
          dyVal (fround53 a b) * 2 ^ (53 + shift) * b := by
        rw [pow_add]
        ring
      rw [e1, hpack]
      have e2 : (a : ℚ) * (2 ^ 53 + 1) * 2 ^ shift =
          a * 2 ^ (shift + 53) + a * 2 ^ shift := by
        rw [pow_add]
        ring
      rw [e2]
      exact key
    exact le_of_mul_le_mul_right hgoal2 hsq

theorem fround53_num_pos (a b : Nat) (ha : 1 ≤ a) (hb : 1 ≤ b) :
    1 ≤ (fround53 a b).num := (fround53_facts a b ha hb).1

theorem fround53_val_le (a b : Nat) (ha : 1 ≤ a) (hb : 1 ≤ b) :
    dyVal (fround53 a b) * 2 ^ 53 ≤ ((a : ℚ) / b) * (2 ^ 53 + 1) :=
  (fround53_facts a b ha hb).2

theorem fround53_self (a : Nat) (ha : 1 ≤ a) : fround53 a a = ⟨2 ^ 52, 52⟩ := by
  have hane : a ≠ 0 := by omega
  have hQ : a * 2 ^ (53 + bitlen a) / a = 2 ^ (53 + bitlen a) :=
    Nat.mul_div_cancel_left _ (by omega)
  have ht : bitlen (a * 2 ^ (53 + bitlen a) / a) = 53 + bitlen a + 1 := by
    rw [hQ, bitlen_two_pow]
  have hm : roundNEdiv (a * 2 ^ ((53 + bitlen a) + 53))
      (a * 2 ^ (53 + bitlen a + 1)) = 2 ^ 52 := by
    have hdvd : a * 2 ^ (53 + bitlen a + 1) ∣ a * 2 ^ ((53 + bitlen a) + 53) := by
      apply Nat.mul_dvd_mul_left
      exact pow_dvd_pow 2 (by omega)
    rw [roundNEdiv_exact _ _ hdvd (by positivity)]
    rw [Nat.mul_div_mul_left _ _ (by omega)]
    rw [Nat.pow_div (by omega) (by norm_num)]
    congr 1
    omega
  rw [fround53_def a a hane, ht, hm]
  rw [if_neg (by omega)]
  congr 1
  omega

theorem dyFloor_le_val (x : Dy) : (dyFloor x : ℚ) ≤ dyVal x := by
  unfold dyFloor dyVal
  have h := Nat.cast_div_le (m := x.num) (n := 2 ^ x.sh) (α := ℚ)
  push_cast at h ⊢
  exact h

theorem mul07floor_lt (t : Nat) (ht : 1 ≤ t) : mul07floor t < t := by
  unfold mul07floor fofNat
  have hnum : 1 ≤ (fround53 t 1).num := fround53_num_pos t 1 ht le_rfl
  have hval : dyVal (fround53 t 1) * 2 ^ 53 ≤ ((t : ℚ) / 1) * (2 ^ 53 + 1) :=
    fround53_val_le t 1 ht le_rfl
  rw [div_one] at hval
  set x := fround53 t 1 with hx
  clear_value x
  show dyFloor (fround53 (x.num * FLOAT07_NUM) (2 ^ (x.sh + 53))) < t
  set a2 := x.num * FLOAT07_NUM with ha2def
  set b2 := 2 ^ (x.sh + 53) with hb2def
  have ha2p : 1 ≤ a2 := by
    have hM : (0 : Nat) < FLOAT07_NUM := by norm_num [FLOAT07_NUM]
    exact Nat.one_le_iff_ne_zero.mpr (Nat.mul_ne_zero (by omega) (by omega))
  have hb2p : 1 ≤ b2 := Nat.one_le_two_pow
  have hval2 : dyVal (fround53 a2 b2) * 2 ^ 53 ≤ ((a2 : ℚ) / b2) * (2 ^ 53 + 1) :=
    fround53_val_le a2 b2 ha2p hb2p
  have hratio : ((a2 : ℚ) / b2) = dyVal x * (FLOAT07_NUM : ℚ) / 2 ^ 53 := by
    rw [ha2def, hb2def]
    unfold dyVal
    rw [pow_add]
    push_cast
    have h1 : ((2 : ℚ) ^ x.sh) ≠ 0 := by positivity
    rw [div_mul_eq_mul_div, div_div, div_eq_div_iff (by positivity) (by positivity)]
    ring
  rw [hratio] at hval2
  have hvx0 : 0 ≤ dyVal x := by unfold dyVal; positivity
  have hfl : (dyFloor (fround53 a2 b2) : ℚ) ≤ dyVal (fround53 a2 b2) :=
    dyFloor_le_val _
  set vy := dyVal (fround53 a2 b2) with hvy
  set vx := dyVal x with hvx
  clear_value vy vx
  clear_value a2 b2
  set M : ℚ := (FLOAT07_NUM : ℚ) with hM
  have hM0 : (0 : ℚ) < M := by rw [hM]; norm_num [FLOAT07_NUM]
  clear_value M
  -- combine: vy * 2 ^ 159 ≤ t * (M * (2 ^ 53 + 1) ^ 2) < t * 2 ^ 159
  have step1 : vy * 2 ^ 106 ≤ vx * (M * (2 ^ 53 + 1)) := by
    have h2 : vy * 2 ^ 53 * 2 ^ 53 ≤ vx * M / 2 ^ 53 * (2 ^ 53 + 1) * 2 ^ 53 :=
      mul_le_mul_of_nonneg_right hval2 (by positivity)
    calc vy * 2 ^ 106 = vy * 2 ^ 53 * 2 ^ 53 := by ring
    _ ≤ vx * M / 2 ^ 53 * (2 ^ 53 + 1) * 2 ^ 53 := h2
    _ = vx * (M * (2 ^ 53 + 1)) := by field_simp; ring
  have step2 : vx * (M * (2 ^ 53 + 1)) * 2 ^ 53 ≤
      (t : ℚ) * (M * (2 ^ 53 + 1) ^ 2) := by
    have h3 : vx * 2 ^ 53 * (M * (2 ^ 53 + 1)) ≤
        (t : ℚ) * (2 ^ 53 + 1) * (M * (2 ^ 53 + 1)) := by
      apply mul_le_mul_of_nonneg_right hval
      positivity
    calc vx * (M * (2 ^ 53 + 1)) * 2 ^ 53
        = vx * 2 ^ 53 * (M * (2 ^ 53 + 1)) := by ring
    _ ≤ (t : ℚ) * (2 ^ 53 + 1) * (M * (2 ^ 53 + 1)) := h3
    _ = (t : ℚ) * (M * (2 ^ 53 + 1) ^ 2) := by ring
  have step3 : vy * 2 ^ 159 ≤ (t : ℚ) * (M * (2 ^ 53 + 1) ^ 2) := by
    have h4 : vy * 2 ^ 106 * 2 ^ 53 ≤ vx * (M * (2 ^ 53 + 1)) * 2 ^ 53 :=
      mul_le_mul_of_nonneg_right step1 (by positivity)
    calc vy * 2 ^ 159 = vy * 2 ^ 106 * 2 ^ 53 := by ring
    _ ≤ vx * (M * (2 ^ 53 + 1)) * 2 ^ 53 := h4
    _ ≤ (t : ℚ) * (M * (2 ^ 53 + 1) ^ 2) := step2
  have hconst : M * (2 ^ 53 + 1) ^ 2 < 2 ^ 159 := by
    rw [hM]
    norm_num [FLOAT07_NUM]
  have htq : (1 : ℚ) ≤ (t : ℚ) := by exact_mod_cast ht
  have hvy_lt : vy < (t : ℚ) := by
    by_contra hc
    push_neg at hc
    have h5 : (t : ℚ) * (M * (2 ^ 53 + 1) ^ 2) < (t : ℚ) * 2 ^ 159 := by
      apply mul_lt_mul_of_pos_left hconst
      linarith
    have h6 : (t : ℚ) * 2 ^ 159 ≤ vy * 2 ^ 159 :=
      mul_le_mul_of_nonneg_right hc (by positivity)
    linarith
  have hfin : (dyFloor (fround53 a2 b2) : ℚ) < (t : ℚ) := lt_of_le_of_lt hfl hvy_lt
  exact_mod_cast hfin

theorem chunkLoop_sizes (size : Nat → Nat → Nat) (maxB approx total : Nat) :
    ∀ fuel start idx target tr cs ok,
      chunkLoop size maxB approx total fuel start idx target = some (tr, cs, ok) →
      ∀ c ∈ cs, c.size_bytes ≤ maxB ∧
        c.size_bytes = size c.start_ms (c.end_ms - c.start_ms) := by
  intro fuel
  induction fuel with
  | zero => intro start idx target tr cs ok h; simp [chunkLoop] at h
  | succ n ih =>
    intro start idx target tr cs ok h
    rw [chunkLoop] at h
    simp only [] at h
    split at h
    · -- size start target ≤ maxB
      rename_i hsz
      split at h
      · -- start + target < total
        rename_i hlt
        split at h
        · exact absurd h (by simp)
        · rename_i tr' cs' ok' hrec
          injection h with h1
          injection h1 with htr hrest
          injection hrest with hcs hok
          subst htr hcs hok
          intro c hc
          rcases List.mem_cons.mp hc with rfl | hmem
          · refine ⟨hsz, ?_⟩
            simp
          · exact ih _ _ _ _ _ _ hrec c hmem
      · injection h with h1
        injection h1 with htr hrest
        injection hrest with hcs hok
        subst htr hcs hok
        intro c hc
        rcases List.mem_cons.mp hc with rfl | hmem
        · refine ⟨‹size start target ≤ maxB›, ?_⟩
          simp
        · simp at hmem
    · split at h
      · injection h with h1
        injection h1 with htr hrest
        injection hrest with hcs hok
        subst hcs
        intro c hc
        simp at hc
      · split at h
        · exact absurd h (by simp)
        · rename_i tr' cs' ok' hrec
          injection h with h1
          injection h1 with htr hrest
          injection hrest with hcs hok
          subst htr hcs hok
          exact ih _ _ _ _ _ _ hrec

theorem chunkLoop_tiles (size : Nat → Nat → Nat) (maxB approx total : Nat)
    (happrox : 1 ≤ approx) :
    ∀ fuel start idx target tr cs,
      1 ≤ target → target ≤ total - start → start < total →
      chunkLoop size maxB approx total fuel start idx target = some (tr, cs, true) →
      tiles cs start total = true := by
  intro fuel
  induction fuel with
  | zero => intro start idx target tr cs _ _ _ h; simp [chunkLoop] at h
  | succ n ih =>
    intro start idx target tr cs h1 h2 h3 h
    rw [chunkLoop] at h
    simp only [] at h
    split at h
    · rename_i hsz
      split at h
      · rename_i hlt
        split at h
        · exact absurd h (by simp)
        · rename_i tr' cs' ok' hrec
          injection h with h1'
          injection h1' with htr hrest
          injection hrest with hcs hok
          subst htr hcs hok
          simp only [tiles, Bool.and_eq_true, decide_eq_true_eq]
          refine ⟨⟨by simp, by omega⟩, ?_⟩
          exact ih (start + target) (idx + 1) (min approx (total - (start + target)))
            tr' cs' (by omega) (by omega) hlt hrec
      · rename_i hlt
        injection h with h1'
        injection h1' with htr hrest
        injection hrest with hcs hok
        subst htr hcs
        simp only [tiles, Bool.and_eq_true, decide_eq_true_eq]
        refine ⟨⟨by simp, by omega⟩, ?_⟩
        have : start + target = total := by omega
        simp [tiles, this]
    · rename_i hsz
      split at h
      · injection h with h1'
        injection h1' with htr hrest
        injection hrest with hcs hok
        exact absurd hok.symm (by simp)
      · rename_i hmin
        split at h
        · exact absurd h (by simp)
        · rename_i tr' cs' ok' hrec
          injection h with h1'
          injection h1' with htr hrest
          injection hrest with hcs hok
          subst htr hcs hok
          have hml := mul07floor_lt target (by omega)
          have emin : MIN_CHUNK_MS = 5000 := rfl
          exact ih start idx (max MIN_CHUNK_MS (mul07floor target)) tr' cs'
            (by omega) (by omega) h3 hrec

theorem genChunks_tiles (size : Nat → Nat → Nat) (maxB approx total fuel : Nat)
    (happrox : 1 ≤ approx) (htotal : 1 ≤ total) (tr : List (Nat × Nat))
    (cs : List Chunk)
    (h : genChunks size maxB approx total fuel = some (tr, cs, true)) :
    tiles cs 0 total = true := by
  unfold genChunks at h
  rw [if_neg (by omega)] at h
  exact chunkLoop_tiles size maxB approx total happrox fuel 0 0 (min approx total)
    tr cs (by omega) (by omega) (by omega) h

theorem chunkLoop_trace_head (size : Nat → Nat → Nat) (maxB approx total : Nat) :
    ∀ fuel start idx target tr cs ok,
      chunkLoop size maxB approx total fuel start idx target = some (tr, cs, ok) →
      tr.head? = some (start, target) := by
  intro fuel
  cases fuel with
  | zero => intro start idx target tr cs ok h; simp [chunkLoop] at h
  | succ n =>
    intro start idx target tr cs ok h
    rw [chunkLoop] at h
    simp only [] at h
    split at h
    · split at h
      · split at h
        · exact absurd h (by simp)
        · injection h with h1'
          injection h1' with htr hrest
          subst htr
          rfl
      · injection h with h1'
        injection h1' with htr hrest
        subst htr
        rfl
    · split at h
      · injection h with h1'
        injection h1' with htr hrest
        subst htr
        rfl
      · split at h
        · exact absurd h (by simp)
        · injection h with h1'
          injection h1' with htr hrest
          subst htr
          rfl

theorem chunkLoop_trace_start_le (size : Nat → Nat → Nat) (maxB approx total : Nat) :
    ∀ fuel start idx target tr cs ok,
      chunkLoop size maxB approx total fuel start idx target = some (tr, cs, ok) →
      ∀ sd ∈ tr, start ≤ sd.1 := by
  intro fuel
  induction fuel with
  | zero => intro start idx target tr cs ok h; simp [chunkLoop] at h
  | succ n ih =>
    intro start idx target tr cs ok h
    rw [chunkLoop] at h
    simp only [] at h
    split at h
    · split at h
      · split at h
        · exact absurd h (by simp)
        · rename_i tr' cs' ok' hrec
          injection h with h1'
          injection h1' with htr hrest
          subst htr
          intro sd hsd
          rcases List.mem_cons.mp hsd with rfl | hmem
          · exact le_refl _
          · have := ih _ _ _ _ _ _ hrec sd hmem
            omega
      · injection h with h1'
        injection h1' with htr hrest
        subst htr
        intro sd hsd
        simp at hsd
        subst hsd
        exact le_refl _
    · split at h
      · injection h with h1'
        injection h1' with htr hrest
        subst htr
        intro sd hsd
        simp at hsd
        subst hsd
        exact le_refl _
      · split at h
        · exact absurd h (by simp)
        · rename_i tr' cs' ok' hrec
          injection h with h1'
          injection h1' with htr hrest
          subst htr
          intro sd hsd
          rcases List.mem_cons.mp hsd with rfl | hmem
          · exact le_refl _
          · exact ih _ _ _ _ _ _ hrec sd hmem

theorem chunkLoop_shrink_behavior (size : Nat → Nat → Nat) (maxB approx total : Nat) :
    ∀ fuel start idx target tr cs ok,
      chunkLoop size maxB approx total fuel start idx target = some (tr, cs, ok) →
      ∀ i s d, tr.get? i = some (s, d) → maxB < size s d →
        (MIN_CHUNK_MS < d →
          tr.get? (i + 1) = some (s, max MIN_CHUNK_MS (mul07floor d))) ∧
        (d ≤ MIN_CHUNK_MS → ok = false ∧ tr.length = i + 1 ∧ ∀ c ∈ cs, c.end_ms ≤ s) := by
  intro fuel
  induction fuel with
  | zero => intro start idx target tr cs ok h; simp [chunkLoop] at h
  | succ n ih =>
    intro start idx target tr cs ok h
    rw [chunkLoop] at h
    simp only [] at h
    split at h
    · rename_i hsz
      split at h
      · rename_i hlt
        split at h
        · exact absurd h (by simp)
        · rename_i tr' cs' ok' hrec
          injection h with h1'
          injection h1' with htr hrest
          injection hrest with hcs hok
          subst htr hcs hok
          intro i s d hget hbig
          cases i with
          | zero =>
            simp only [List.get?_cons_zero] at hget
            injection hget with hg
            injection hg with hg1 hg2
            subst hg1 hg2
            omega
          | succ j =>
            simp only [List.get?_cons_succ] at hget ⊢
            obtain ⟨hshrink, hfail⟩ := ih _ _ _ _ _ _ hrec j s d hget hbig
            refine ⟨hshrink, ?_⟩
            intro hdmin
            obtain ⟨hok', hlen, hcs'⟩ := hfail hdmin
            refine ⟨hok', by simp [hlen], ?_⟩
            intro c hc
            rcases List.mem_cons.mp hc with rfl | hmem
            · have hmem' : (s, d) ∈ tr' := List.get?_mem hget
              have := chunkLoop_trace_start_le size maxB approx total n _ _ _ _ _ _
                hrec (s, d) hmem'
              simp only []
              omega
            · exact hcs' c hmem
      · injection h with h1'
        injection h1' with htr hrest
        injection hrest with hcs hok
        subst htr hcs hok
        intro i s d hget hbig
        cases i with
        | zero =>
          simp only [List.get?_cons_zero] at hget
          injection hget with hg
          injection hg with hg1 hg2
          subst hg1 hg2
          omega
        | succ j =>
          simp at hget
    · rename_i hsz
      split at h
      · rename_i hmin
        injection h with h1'
        injection h1' with htr hrest
        injection hrest with hcs hok
        subst htr hcs hok
        intro i s d hget hbig
        cases i with
        | zero =>
          simp only [List.get?_cons_zero] at hget
          injection hget with hg
          injection hg with hg1 hg2
          subst hg1 hg2
          refine ⟨by omega, ?_⟩
          intro _
          exact ⟨rfl, rfl, by simp⟩
        | succ j =>
          simp at hget
      · rename_i hmin
        split at h
        · exact absurd h (by simp)
        · rename_i tr' cs' ok' hrec
          injection h with h1'
          injection h1' with htr hrest
          injection hrest with hcs hok
          subst htr hcs hok
          intro i s d hget hbig
          cases i with
          | zero =>
            simp only [List.get?_cons_zero] at hget
            injection hget with hg
            injection hg with hg1 hg2
            subst hg1 hg2
            refine ⟨?_, by omega⟩
            intro _
            have hhead := chunkLoop_trace_head size maxB approx total n _ _ _ _ _ _ hrec
            simp only [List.get?_cons_succ]
            rw [← List.get?_zero] at hhead
            exact hhead
          | succ j =>
            simp only [List.get?_cons_succ] at hget ⊢
            obtain ⟨hshrink, hfail⟩ := ih _ _ _ _ _ _ hrec j s d hget hbig
            refine ⟨hshrink, ?_⟩
            intro hdmin
            obtain ⟨hok', hlen, hcs'⟩ := hfail hdmin
            exact ⟨hok', by simp [hlen], hcs'⟩

theorem chunkLoop_isSome (size : Nat → Nat → Nat) (maxB approx total : Nat)
    (happrox : 1 ≤ approx) :
    ∀ fuel start idx target,
      1 ≤ target → target ≤ total - start → start < total → target ≤ approx →
      (total - start) * (approx + 1) + target < fuel →
      (chunkLoop size maxB approx total fuel start idx target).isSome = true := by
  intro fuel
  induction fuel with
  | zero => intro start idx target _ _ _ _ hm; omega
  | succ n ih =>
    intro start idx target h1 h2 h3 h4 hm
    rw [chunkLoop]
    simp only []
    split
    · rename_i hsz
      split
      · rename_i hlt
        have hrec := ih (start + target) (idx + 1) (min approx (total - (start + target)))
          (by omega) (by omega) hlt (by omega) ?_
        · split
          · rename_i hnone
            rw [hnone] at hrec
            simp at hrec
          · simp
        · -- measure decreases by at least 2 on acceptance
          have heq : total - (start + target) = total - start - target := by omega
          rw [heq]
          have e1 : (total - start - target + 1) * (approx + 1) =
              (total - start - target) * (approx + 1) + (approx + 1) := by ring
          have e2 : (total - start - target + 1) * (approx + 1) ≤
              (total - start) * (approx + 1) :=
            Nat.mul_le_mul_right (approx + 1) (by omega)
          have hmin' : min approx (total - start - target) ≤ approx := Nat.min_le_left _ _
          omega
      · simp
    · split
      · simp
      · rename_i hsz hmin
        have hml := mul07floor_lt target (by omega)
        have emin : MIN_CHUNK_MS = 5000 := rfl
        have hrec := ih start idx (max MIN_CHUNK_MS (mul07floor target))
          (by omega) (by omega) h3 (by omega) (by omega)
        split
        · rename_i hnone
          rw [hnone] at hrec
          simp at hrec
        · simp

theorem genChunks_isSome (size : Nat → Nat → Nat) (maxB approx total : Nat)
    (happrox : 1 ≤ approx) :
    (genChunks size maxB approx total (total * (approx + 1) + approx + 1)).isSome = true := by
  unfold genChunks
  split
  · simp
  · rename_i htz
    apply chunkLoop_isSome size maxB approx total happrox
    · omega
    · omega
    · omega
    · exact Nat.min_le_left _ _
    · have := Nat.min_le_left approx total
      have e : total - 0 = total := by omega
      rw [e]
      omega

theorem intercalate_go_nil (acc s : String) : String.intercalate.go acc s [] = acc := by
  simp [String.intercalate.go]

theorem intercalate_go_cons (acc s b : String) (l : List String) :
    String.intercalate.go acc s (b :: l) = String.intercalate.go (acc ++ s ++ b) s l := by
  simp [String.intercalate.go]

theorem intercalate_single (s a : String) : String.intercalate s [a] = a := by
  simp [String.intercalate, intercalate_go_nil]

theorem intercalate_pair (s a b : String) :
    String.intercalate s [a, b] = a ++ s ++ b := by
  simp [String.intercalate, intercalate_go_cons, intercalate_go_nil]

theorem generateSingleDocument_ok (respond : String → String → String)
    (compilePdf : String → Except String (List Nat)) (k t p tr : String)
    (doc : GeneratedDocument)
    (h : generateSingleDocument respond compilePdf k t p tr = Except.ok doc) :
    doc.key = k := by
  unfold generateSingleDocument at h
  split at h
  · exact absurd h (by simp)
  · split at h
    · exact absurd h (by simp)
    · injection h with h1
      subst h1
      rfl

theorem intercalate_go_sfx (s : String) :
    ∀ (l : List String) (acc : String), ∃ post, String.intercalate.go acc s l = acc ++ post := by
  intro l
  induction l with
  | nil => intro acc; exact ⟨"", by simp [intercalate_go_nil]⟩
  | cons b l ih =>
    intro acc
    obtain ⟨post, hpost⟩ := ih (acc ++ s ++ b)
    refine ⟨s ++ b ++ post, ?_⟩
    rw [intercalate_go_cons, hpost]
    simp [String.append_assoc]

theorem intercalate_go_mem (s x : String) :
    ∀ (l : List String), x ∈ l → ∀ acc : String,
      ∃ pre post, String.intercalate.go acc s l = pre ++ x ++ post := by
  intro l
  induction l with
  | nil => intro hx; simp at hx
  | cons b l ih =>
    intro hx acc
    rcases List.mem_cons.mp hx with rfl | hmem
    · obtain ⟨post, hpost⟩ := intercalate_go_sfx s l (acc ++ s ++ x)
      exact ⟨acc ++ s, post, by rw [intercalate_go_cons, hpost]⟩
    · obtain ⟨pre, post, hpp⟩ := ih hmem (acc ++ s ++ b)
      exact ⟨pre, post, by rw [intercalate_go_cons, hpp]⟩

theorem intercalate_mem (s x : String) (l : List String) (hx : x ∈ l) :
    ∃ pre post, String.intercalate s l = pre ++ x ++ post := by
  cases l with
  | nil => simp at hx
  | cons b l =>
    rcases List.mem_cons.mp hx with rfl | hmem
    · obtain ⟨post, hpost⟩ := intercalate_go_sfx s l x
      exact ⟨"", post, by simp [String.intercalate, hpost]⟩
    · obtain ⟨pre, post, hpp⟩ := intercalate_go_mem s x l hmem b
      exact ⟨pre, post, by simp [String.intercalate, hpp]⟩

theorem length_filterMap_of_isSome {α β : Type} (f : α → Option β) :
    ∀ l : List α, (∀ a ∈ l, (f a).isSome = true) →
      (l.filterMap f).length = l.length := by
  intro l
  induction l with
  | nil => intro _; simp
  | cons a l ih =>
    intro h
    have ha := h a (by simp)
    obtain ⟨b, hb⟩ := Option.isSome_iff_exists.mp ha
    rw [List.filterMap_cons, hb]
    simp only [List.length_cons]
    rw [ih (fun x hx => h x (by simp [hx]))]

theorem gld_ok_all (respond : String → String → String)
    (compilePdf : String → Except String (List Nat)) (transcript : String)
    (completion : List (String × String × String)) (docs : List GeneratedDocument)
    (h : generateLatexDocuments respond compilePdf transcript completion = Except.ok docs) :
    docs.length = completion.length ∧
    ∀ task ∈ completion, ∃ doc, doc ∈ docs ∧ doc.key = task.1 ∧
      generateSingleDocument respond compilePdf task.1 task.2.1 task.2.2 transcript =
        Except.ok doc := by
  unfold generateLatexDocuments at h
  simp only [] at h
  split at h
  · rename_i hempty
    injection h with hdocs
    rw [List.isEmpty_iff, List.filterMap_eq_nil_iff] at hempty
    have hall : ∀ task ∈ completion, ∃ doc,
        generateSingleDocument respond compilePdf task.1 task.2.1 task.2.2 transcript =
          Except.ok doc := by
      intro task htask
      cases he : generateSingleDocument respond compilePdf task.1 task.2.1 task.2.2
          transcript with
      | ok d => exact ⟨d, rfl⟩
      | error e =>
        have := hempty _ (List.mem_map_of_mem
          (fun task => (task.1, generateSingleDocument respond compilePdf task.1 task.2.1
            task.2.2 transcript)) htask)
        simp [he] at this
    constructor
    · rw [← hdocs, (List.perm_insertionSort _ _).length_eq, List.filterMap_map]
      apply length_filterMap_of_isSome
      intro a ha
      obtain ⟨doc, hdoc⟩ := hall a ha
      simp [Function.comp, hdoc, Except.toOption]
    · intro task htask
      obtain ⟨doc, hdoc⟩ := hall task htask
      refine ⟨doc, ?_, generateSingleDocument_ok _ _ _ _ _ _ _ hdoc, hdoc⟩
      rw [← hdocs]
      apply (List.perm_insertionSort _ _).mem_iff.mpr
      apply List.mem_filterMap.mpr
      refine ⟨(task.1, generateSingleDocument respond compilePdf task.1 task.2.1 task.2.2
        transcript), ?_, by simp [hdoc, Except.toOption]⟩
      exact List.mem_map_of_mem _ htask
  · exact absurd h (by simp)

theorem gld_error_all (respond : String → String → String)
    (compilePdf : String → Except String (List Nat)) (transcript : String)
    (completion : List (String × String × String)) (msg : String)
    (h : generateLatexDocuments respond compilePdf transcript completion =
      Except.error msg) :
    (∃ task, task ∈ completion ∧ ∃ e,
      generateSingleDocument respond compilePdf task.1 task.2.1 task.2.2 transcript =
        Except.error e) ∧
    ∀ task ∈ completion, ∀ e,
      generateSingleDocument respond compilePdf task.1 task.2.1 task.2.2 transcript =
        Except.error e →
      ∃ pre post, msg = pre ++ task.1 ++ ": " ++ e ++ post := by
  unfold generateLatexDocuments at h
  simp only [] at h
  split at h
  · exact absurd h (by simp)
  · rename_i hne
    injection h with hmsg
    constructor
    · have hnil : (completion.map fun task => (task.1, generateSingleDocument respond
          compilePdf task.1 task.2.1 task.2.2 transcript)).filterMap
          (fun kr => match kr.2 with
            | Except.error e => some (kr.1, e)
            | Except.ok _ => none) ≠ [] := by
        intro h0
        rw [h0] at hne
        simp at hne
      obtain ⟨⟨k, e⟩, hke⟩ := List.exists_mem_of_ne_nil _ hnil
      obtain ⟨kr, hkr, hkre⟩ := List.mem_filterMap.mp hke
      obtain ⟨task, htask, hg⟩ := List.mem_map.mp hkr
      refine ⟨task, htask, e, ?_⟩
      subst hg
      cases hgs : generateSingleDocument respond compilePdf task.1 task.2.1 task.2.2
          transcript with
      | ok d => rw [hgs] at hkre; simp at hkre
      | error e' =>
        rw [hgs] at hkre
        simp at hkre
        rw [hkre.2]
    · intro task htask e he
      have hmem : (task.1, e) ∈ (completion.map fun task => (task.1,
          generateSingleDocument respond compilePdf task.1 task.2.1 task.2.2
            transcript)).filterMap
          (fun kr => match kr.2 with
            | Except.error e => some (kr.1, e)
            | Except.ok _ => none) := by
        apply List.mem_filterMap.mpr
        refine ⟨(task.1, generateSingleDocument respond compilePdf task.1 task.2.1
          task.2.2 transcript), List.mem_map_of_mem _ htask, by simp [he]⟩
      have hx : task.1 ++ ": " ++ e ∈ ((completion.map fun task => (task.1,
          generateSingleDocument respond compilePdf task.1 task.2.1 task.2.2
            transcript)).filterMap
          (fun kr => match kr.2 with
            | Except.error e => some (kr.1, e)
            | Except.ok _ => none)).map (fun ke => ke.1 ++ ": " ++ ke.2) := by
        have := List.mem_map_of_mem (fun ke => ke.1 ++ ": " ++ ke.2) hmem
        simpa using this
      obtain ⟨pre, post, hpp⟩ := intercalate_mem "; " _ _ hx
      refine ⟨"Failed to generate all LaTeX documents: " ++ pre, post, ?_⟩
      rw [← hmsg, hpp]
      simp [String.append_assoc]

theorem perm_pair {α : Type} (l : List α) (a b : α) (h : l.Perm [a, b]) :
    l = [a, b] ∨ l = [b, a] := by
  have hlen := h.length_eq
  match l, hlen with
  | [x, y], _ =>
    have hx : x = a ∨ x = b := by
      have := h.mem_iff.mp (by simp : x ∈ [x, y])
      simpa using this
    rcases hx with h1 | h1
    · left
      subst h1
      have hy : y = b := by simpa using h.cons_inv.mem_iff.mp (List.mem_singleton_self y)
      rw [hy]
    · right
      subst h1
      have h3 := h.trans (List.Perm.swap x a [])
      have hy : y = a := by simpa using h3.cons_inv.mem_iff.mp (List.mem_singleton_self y)
      rw [hy]

theorem gld_all_ok (respond : String → String → String)
    (compilePdf : String → Except String (List Nat)) (transcript : String)
    (completion : List (String × String × String))
    (hperm : completion.Perm DOCUMENT_TASKS) (dA dB : GeneratedDocument)
    (hA : generateSingleDocument respond compilePdf "study-notes" "LaTeX – notatki"
      STUDY_NOTES_PROMPT transcript = Except.ok dA)
    (hB : generateSingleDocument respond compilePdf "spoken-script"
      "LaTeX – zapis mówiony" SPOKEN_STYLE_PROMPT transcript = Except.ok dB) :
    generateLatexDocuments respond compilePdf transcript completion =
      Except.ok [dA, dB] := by
  have hkA := generateSingleDocument_ok _ _ _ _ _ _ _ hA
  have hkB := generateSingleDocument_ok _ _ _ _ _ _ _ hB
  have hp := perm_pair completion _ _ (by simpa [DOCUMENT_TASKS] using hperm)
  rcases hp with hc | hc <;> subst hc
  · unfold generateLatexDocuments
    simp only [List.map_cons, List.map_nil, hA, hB]
    simp only [Except.toOption, List.filterMap_cons, List.filterMap_nil]
    simp only [List.isEmpty_nil, if_pos]
    simp [List.insertionSort, List.orderedInsert, taskOrderIndex, DOCUMENT_TASKS, hkA, hkB]
  · unfold generateLatexDocuments
    simp only [List.map_cons, List.map_nil, hA, hB]
    simp only [Except.toOption, List.filterMap_cons, List.filterMap_nil]
    simp only [List.isEmpty_nil, if_pos]
    simp [List.insertionSort, List.orderedInsert, taskOrderIndex, DOCUMENT_TASKS, hkA, hkB]

/-! ## Claim theorems -/

/-- C1: for every completed run of the chunk generator over a source with
`total_ms ≥ 1` (and a positive planner estimate, as the pipeline always
supplies), the accepted segments tile `[0, total_ms)` contiguously and in
increasing order: the first segment starts at 0, each segment's `end_ms` is
the next segment's `start_ms`, and the last segment's `end_ms` equals
`total_ms` — no gap and no overlap, for any export-size oracle. -/
theorem claim_c1_segments_tile (size : Nat → Nat → Nat)
    (maxB approx total fuel : Nat) (tr : List (Nat × Nat)) (cs : List Chunk)
    (happrox : 1 ≤ approx) (htotal : 1 ≤ total)
    (h : genChunks size maxB approx total fuel = some (tr, cs, true)) :
    tiles cs 0 total = true :=
  genChunks_tiles size maxB approx total fuel happrox htotal tr cs h

/-- Witness for C1: a concrete two-segment run. -/
theorem claim_c1_segments_tile_witness :
    tiles [⟨0, 0, 7000, 1⟩, ⟨1, 7000, 12000, 1⟩] 0 12000 = true :=
  claim_c1_segments_tile (fun _ _ => 1) 100 7000 12000 40
    [(0, 7000), (7000, 5000)] [⟨0, 0, 7000, 1⟩, ⟨1, 7000, 12000, 1⟩]
    (by decide) (by decide) (by decide)

/-- C2: every segment accepted by the chunk generator has a measured payload
byte size that is at most the configured byte budget, and that size is
exactly the byte size the export step measured for the segment's interval —
for any sequence of export-tool byte sizes and either run outcome. -/
theorem claim_c2_sizes_bounded (size : Nat → Nat → Nat)
    (maxB approx total fuel : Nat) (tr : List (Nat × Nat)) (cs : List Chunk)
    (ok : Bool) (h : genChunks size maxB approx total fuel = some (tr, cs, ok)) :
    ∀ c ∈ cs, c.size_bytes ≤ maxB ∧
      c.size_bytes = size c.start_ms (c.end_ms - c.start_ms) := by
  unfold genChunks at h
  split at h
  · injection h with h1
    injection h1 with htr hrest
    injection hrest with hcs hok
    subst hcs
    intro c hc
    simp at hc
  · exact chunkLoop_sizes size maxB approx total fuel 0 0 _ tr cs ok h

/-- Witness for C2: in a run that shrinks once (7000 → 5000) and accepts two
segments of 50 bytes each under a 100-byte budget, the first accepted segment
satisfies the bound and carries the measured size. -/
theorem claim_c2_sizes_bounded_witness :
    (Chunk.mk 0 0 5000 50).size_bytes ≤ 100 ∧
    (Chunk.mk 0 0 5000 50).size_bytes =
      (fun _ d => if 6000 < d then 200 else 50) (Chunk.mk 0 0 5000 50).start_ms
        ((Chunk.mk 0 0 5000 50).end_ms - (Chunk.mk 0 0 5000 50).start_ms) :=
  claim_c2_sizes_bounded (fun _ d => if 6000 < d then 200 else 50) 100 7000 7000 40
    [(0, 7000), (0, 5000), (5000, 2000)] [⟨0, 0, 5000, 50⟩, ⟨1, 5000, 7000, 50⟩]
    true (by decide) ⟨0, 0, 5000, 50⟩ (by decide)

/-- C3 counterexample: in the run below the first export (cursor 0, duration
10250) exceeds the 100-byte budget and 10250 is above the 5000 ms floor, so
the claim predicts a retry at duration `max(min_chunk_ms, floor(10250 * 0.7))
= max(5000, 7175) = 7175`; the code retries at duration 7174, because
`int(10250 * 0.7)` evaluates to 7174 in binary64 arithmetic
(`10250 * 0.7 = 7174.999999999999...`). -/
theorem claim_c3_counterexample :
    genChunks (fun _ d => if d = 10250 then 101 else 1) 100 10250 10250 50 =
      some ([(0, 10250), (0, 7174), (7174, 3076)],
        [⟨0, 0, 7174, 1⟩, ⟨1, 7174, 10250, 1⟩], true) ∧
    100 < (fun _ d => if d = 10250 then 101 else 1) 0 10250 ∧
    MIN_CHUNK_MS < 10250 ∧
    max MIN_CHUNK_MS (7 * 10250 / 10) = 7175 ∧
    (7174 : Nat) ≠ 7175 := by
  refine ⟨by decide, by decide, by decide, by decide, by decide⟩

/-- C3 (amended): whenever an export in a run of the chunk generator exceeds
the byte budget, then: if the target duration is above `min_chunk_ms` the
next export happens at the same cursor with the new target
`max(min_chunk_ms, int(target * 0.7))`, the truncation `int(·)` being taken
of the binary64 product `target * 0.7` (which can be one less than the exact
`floor(0.7 * target)`); and if the target duration is at or below
`min_chunk_ms` the run fails (`ChunkTooLarge`), that export is the last one,
and every accepted segment lies before the failing cursor. -/
theorem claim_c3_shrink_retry (size : Nat → Nat → Nat)
    (maxB approx total fuel : Nat) (tr : List (Nat × Nat)) (cs : List Chunk)
    (ok : Bool) (h : genChunks size maxB approx total fuel = some (tr, cs, ok))
    (i s d : Nat) (hget : tr.get? i = some (s, d)) (hbig : maxB < size s d) :
    (MIN_CHUNK_MS < d →
      tr.get? (i + 1) = some (s, max MIN_CHUNK_MS (mul07floor d))) ∧
    (d ≤ MIN_CHUNK_MS → ok = false ∧ tr.length = i + 1 ∧
      ∀ c ∈ cs, c.end_ms ≤ s) := by
  unfold genChunks at h
  split at h
  · injection h with h1
    injection h1 with htr hrest
    subst htr
    simp at hget
  · exact chunkLoop_shrink_behavior size maxB approx total fuel 0 0 _ tr cs ok h
      i s d hget hbig

/-- Witness for C3 (amended): the 10250-ms run; the too-large first export is
followed by a retry at the same cursor with duration
`max(5000, int(10250 * 0.7)) = 7174`. -/
theorem claim_c3_shrink_retry_witness :
    [(0, 10250), (0, 7174), (7174, 3076)].get? 1 =
      some (0, max MIN_CHUNK_MS (mul07floor 10250)) :=
  (claim_c3_shrink_retry (fun _ d => if d = 10250 then 101 else 1) 100 10250 10250 50
    [(0, 10250), (0, 7174), (7174, 3076)]
    [⟨0, 0, 7174, 1⟩, ⟨1, 7174, 10250, 1⟩] true (by decide)
    0 0 10250 (by decide) (by decide)).1 (by decide)

/-- C4: the document synthesizer is all-or-nothing: for any completion order
of the two fixed tasks, `generate_latex_documents` either returns a list with
one successfully generated document per task descriptor (so never a partial
list), or fails with a single aggregate error whose message contains, for
every failed task, the fragment `<key>: <message>` — and in the failure case
at least one task did fail. -/
theorem claim_c4_all_or_nothing (respond : String → String → String)
    (compilePdf : String → Except String (List Nat)) (transcript : String)
    (completion : List (String × String × String))
    (hperm : completion.Perm DOCUMENT_TASKS) :
    (∃ docs, generateLatexDocuments respond compilePdf transcript completion =
        Except.ok docs ∧ docs.length = DOCUMENT_TASKS.length ∧
      ∀ task ∈ DOCUMENT_TASKS, ∃ doc, doc ∈ docs ∧ doc.key = task.1 ∧
        generateSingleDocument respond compilePdf task.1 task.2.1 task.2.2 transcript =
          Except.ok doc) ∨
    (∃ msg, generateLatexDocuments respond compilePdf transcript completion =
        Except.error msg ∧
      (∃ task, task ∈ DOCUMENT_TASKS ∧ ∃ e,
        generateSingleDocument respond compilePdf task.1 task.2.1 task.2.2 transcript =
          Except.error e) ∧
      ∀ task ∈ DOCUMENT_TASKS, ∀ e,
        generateSingleDocument respond compilePdf task.1 task.2.1 task.2.2 transcript =
          Except.error e →
        ∃ pre post, msg = pre ++ task.1 ++ ": " ++ e ++ post) := by
  cases hres : generateLatexDocuments respond compilePdf transcript completion with
  | ok docs =>
    left
    obtain ⟨hlen, hall⟩ := gld_ok_all respond compilePdf transcript completion docs hres
    refine ⟨docs, rfl, by rw [hlen, hperm.length_eq], ?_⟩
    intro task htask
    exact hall task (hperm.mem_iff.mpr htask)
  | error msg =>
    right
    obtain ⟨⟨task, htask, e, he⟩, hcontain⟩ :=
      gld_error_all respond compilePdf transcript completion msg hres
    refine ⟨msg, rfl, ⟨task, hperm.mem_iff.mp htask, e, he⟩, ?_⟩
    intro task' htask' e' he'
    exact hcontain task' (hperm.mem_iff.mpr htask') e' he'

/-- Witness for C4: both tasks fail (the PDF compiler rejects everything);
the aggregate error names both task keys. -/
theorem claim_c4_all_or_nothing_witness :
    (∃ docs, generateLatexDocuments (fun _ _ => "x") (fun _ => Except.error "boom") "t"
        DOCUMENT_TASKS = Except.ok docs ∧ docs.length = DOCUMENT_TASKS.length ∧
      ∀ task ∈ DOCUMENT_TASKS, ∃ doc, doc ∈ docs ∧ doc.key = task.1 ∧
        generateSingleDocument (fun _ _ => "x") (fun _ => Except.error "boom")
          task.1 task.2.1 task.2.2 "t" = Except.ok doc) ∨
    (∃ msg, generateLatexDocuments (fun _ _ => "x") (fun _ => Except.error "boom") "t"
        DOCUMENT_TASKS = Except.error msg ∧
      (∃ task, task ∈ DOCUMENT_TASKS ∧ ∃ e,
        generateSingleDocument (fun _ _ => "x") (fun _ => Except.error "boom")
          task.1 task.2.1 task.2.2 "t" = Except.error e) ∧
      ∀ task ∈ DOCUMENT_TASKS, ∀ e,
        generateSingleDocument (fun _ _ => "x") (fun _ => Except.error "boom")
          task.1 task.2.1 task.2.2 "t" = Except.error e →
        ∃ pre post, msg = pre ++ task.1 ++ ": " ++ e ++ post) :=
  claim_c4_all_or_nothing (fun _ _ => "x") (fun _ => Except.error "boom") "t"
    DOCUMENT_TASKS (List.Perm.refl _)

/-- C5: when both generation tasks succeed, the returned list is exactly
`[study-notes document, spoken-script document]` — ordered by the fixed task
descriptor order and of length 2 — for every completion order of the two
concurrent tasks. -/
theorem claim_c5_fixed_order (respond : String → String → String)
    (compilePdf : String → Except String (List Nat)) (transcript : String)
    (completion : List (String × String × String))
    (hperm : completion.Perm DOCUMENT_TASKS) (dA dB : GeneratedDocument)
    (hA : generateSingleDocument respond compilePdf "study-notes" "LaTeX – notatki"
      STUDY_NOTES_PROMPT transcript = Except.ok dA)
    (hB : generateSingleDocument respond compilePdf "spoken-script"
      "LaTeX – zapis mówiony" SPOKEN_STYLE_PROMPT transcript = Except.ok dB) :
    generateLatexDocuments respond compilePdf transcript completion =
      Except.ok [dA, dB] :=
  gld_all_ok respond compilePdf transcript completion hperm dA dB hA hB

/-- Witness for C5: both tasks succeed and the completion order is reversed
(spoken-script finishes first); the result is still ordered
`[study-notes, spoken-script]`. -/
theorem claim_c5_fixed_order_witness :
    generateLatexDocuments (fun _ _ => "x") (fun _ => Except.ok [7]) "t"
      [("spoken-script", "LaTeX – zapis mówiony", SPOKEN_STYLE_PROMPT),
       ("study-notes", "LaTeX – notatki", STUDY_NOTES_PROMPT)] =
      Except.ok
        [⟨"study-notes", "LaTeX – notatki", "x", [7], "study-notes.tex",
          "study-notes.pdf"⟩,
         ⟨"spoken-script", "LaTeX – zapis mówiony", "x", [7], "spoken-script.tex",
          "spoken-script.pdf"⟩] :=
  claim_c5_fixed_order (fun _ _ => "x") (fun _ => Except.ok [7]) "t"
    [("spoken-script", "LaTeX – zapis mówiony", SPOKEN_STYLE_PROMPT),
     ("study-notes", "LaTeX – notatki", STUDY_NOTES_PROMPT)]
    (by decide) _ _ rfl rfl

/-- C6 counterexample: for duration 1277 ms, unknown bit rate, file size
6291456 bytes and the default 24 MiB budget, the exact-arithmetic formula of
the claim gives `floor(25165824 / (6291456/1277)) = 5108`, but the code
computes 5107: the binary64 quotient `6291456 / 1277` rounds up, so
`25165824 / bytes_per_ms` lands just below 5108 and `int(..)` truncates to
5107. -/
theorem claim_c6_counterexample :
    estimateChunkDuration 1277 none 6291456 25165824 = 5107 ∧
    estimateChunkDurationClaimExact 1277 none 6291456 25165824 = 5108 ∧
    (5107 : Nat) ≠ 5108 := by
  refine ⟨by decide, ?_, by decide⟩
  unfold estimateChunkDurationClaimExact
  have h1 : max ((6291456 : ℚ) / 1277) 1 = 6291456 / 1277 := by
    rw [max_eq_left]
    norm_num
  have h2 : (25165824 : ℚ) / (6291456 / 1277) = 5108 := by norm_num
  have h3 : (⌊(5108 : ℚ)⌋₊ : Nat) = 5108 := by
    rw [Nat.floor_eq_iff] <;> norm_num
  norm_num [h1, h2, h3, MIN_CHUNK_MS]

/-- C6 (amended): for all inputs, the chunk-duration estimator implements the
claimed algorithm with the byte-density and quotient computed in IEEE
binary64 arithmetic (which can differ from the exact rational floor by one):
if a nonzero bit rate is known, `bytes_per_ms = max((bit_rate/8)/1000, 1)`;
else if `duration_ms > 0`, `bytes_per_ms = max(file_size / duration_ms, 1)`;
else the whole byte budget is used; the result is the truncated binary64
quotient `byte_budget / bytes_per_ms`, floored below at `min_chunk_ms` —
and the result is always at least `min_chunk_ms`. -/
theorem claim_c6_estimator_amended (durationMs : Nat) (bitRate : Option Nat)
    (fileSize maxChunkBytes : Nat) :
    estimateChunkDuration durationMs bitRate fileSize maxChunkBytes =
      estimateChunkDurationAmended durationMs bitRate fileSize maxChunkBytes ∧
    MIN_CHUNK_MS ≤ estimateChunkDuration durationMs bitRate fileSize maxChunkBytes := by
  unfold estimateChunkDuration estimateChunkDurationAmended bytesPerMs
  split_ifs with h1 h2 <;> exact ⟨rfl, le_max_right _ _⟩

theorem dyLe_iff (x y : Dy) : dyLe x y = true ↔ dyVal x ≤ dyVal y := by
  unfold dyLe dyVal
  rw [div_le_div_iff₀ (by positivity) (by positivity)]
  rw [decide_eq_true_eq]
  constructor
  · intro h
    exact_mod_cast h
  · intro h
    exact_mod_cast h

theorem dyVal_dyMin (x y : Dy) : dyVal (dyMin x y) = min (dyVal x) (dyVal y) := by
  unfold dyMin
  split_ifs with h
  · rw [min_eq_left ((dyLe_iff x y).mp h)]
  · have hyx : dyVal y ≤ dyVal x := by
      by_contra hc
      push_neg at hc
      exact h ((dyLe_iff x y).mpr (le_of_lt hc))
    rw [min_eq_right hyx]

theorem dyVal_dyOne : dyVal dyOne = 1 := by
  unfold dyVal dyOne
  norm_num

/-- C7: for every `ChunkTranscript`, the value of `progress` is
`min(end_ms / total_ms, 1.0)` — the division being the binary64 division the
code performs — when `total_ms` is nonzero, and 0 when `total_ms` is 0; and
for a final segment (`end_ms = total_ms`) the progress is exactly 1. -/
theorem claim_c7_progress (c : ChunkTranscript) :
    (c.total_ms = 0 → dyVal c.progress = 0) ∧
    (c.total_ms ≠ 0 → dyVal c.progress =
      min (dyVal (fdivD (fofNat c.end_ms) (fofNat c.total_ms))) 1) ∧
    (c.total_ms ≠ 0 → c.end_ms = c.total_ms → dyVal c.progress = 1) := by
  refine ⟨?_, ?_, ?_⟩
  · intro h0
    unfold ChunkTranscript.progress
    rw [if_neg (by simp [h0])]
    unfold dyVal
    norm_num
  · intro hne
    unfold ChunkTranscript.progress
    rw [if_pos hne, dyVal_dyMin, dyVal_dyOne]
  · intro hne heq
    unfold ChunkTranscript.progress
    rw [if_pos hne, heq]
    have hself : fdivD (fofNat c.total_ms) (fofNat c.total_ms) = ⟨2 ^ 52, 52⟩ := by
      have hnum : 1 ≤ (fofNat c.total_ms).num :=
        fround53_num_pos c.total_ms 1 (by omega) le_rfl
      unfold fdivD
      exact fround53_self _ (Nat.one_le_iff_ne_zero.mpr (by positivity))
    rw [hself, dyVal_dyMin, dyVal_dyOne]
    have h52 : dyVal ⟨2 ^ 52, 52⟩ = 1 := by
      unfold dyVal
      norm_num
    rw [h52]
    norm_num

/-- Witness for C7: a final chunk with `end_ms = total_ms = 3` has progress
exactly 1. -/
theorem claim_c7_progress_witness :
    dyVal (ChunkTranscript.progress ⟨0, 3, 3, 3, "ok"⟩) = 1 :=
  (claim_c7_progress ⟨0, 3, 3, 3, "ok"⟩).2.2 (by decide) rfl

/-- C8: for every source duration `total_ms ≥ 1`, every planner estimate at
least `min_chunk_ms`, and every sequence of export-tool byte sizes, the chunk
generator performs only finitely many export invocations: a fuel budget of
`total * (approx + 1) + approx + 1` invocations always suffices for the run
to finish — by yielding the last segment (`true`) or raising `ChunkTooLarge`
(`false`). -/
theorem claim_c8_termination (size : Nat → Nat → Nat) (maxB approx total : Nat)
    (_htotal : 1 ≤ total) (happrox : MIN_CHUNK_MS ≤ approx) :
    ∃ fuel tr cs ok,
      genChunks size maxB approx total fuel = some (tr, cs, ok) := by
  have happrox1 : 1 ≤ approx := by
    have e : MIN_CHUNK_MS = 5000 := rfl
    omega
  have h := genChunks_isSome size maxB approx total happrox1
  obtain ⟨⟨tr, cs, ok⟩, hres⟩ := Option.isSome_iff_exists.mp h
  exact ⟨total * (approx + 1) + approx + 1, tr, cs, ok, hres⟩

/-- Witness for C8: a concrete instantiation (every export reports 0 bytes,
10-second source, 6-second estimate). -/
theorem claim_c8_termination_witness :
    ∃ fuel tr cs ok,
      genChunks (fun _ _ => 0) 0 6000 10000 fuel = some (tr, cs, ok) :=
  claim_c8_termination (fun _ _ => 0) 0 6000 10000 (by decide) (by decide)

/-- C9: a filename whose (case-insensitively compared) extension is not in
the fixed supported set makes `chunked_transcription` fail with
`UnsupportedAudioFormatError` before any effectful step — no client
construction, no file materialisation, no probe; a filename whose extension
is in the set passes the check, so this error is not raised. -/
theorem claim_c9_format_check (filename : String) :
    (SUPPORTED_EXTENSIONS.contains (extOf filename) = false →
      chunkedTranscriptionPrelude filename =
        ([], Except.error UNSUPPORTED_FORMAT_MSG)) ∧
    (SUPPORTED_EXTENSIONS.contains (extOf filename) = true →
      chunkedTranscriptionPrelude filename =
        (["create_openai_client", "prepare_local_audio_file", "probe_audio_metadata"],
          Except.ok (extOf filename))) := by
  unfold chunkedTranscriptionPrelude inferAudioFormat
  constructor
  · intro hno
    rw [if_neg (by rw [hno]; simp)]
  · intro hyes
    rw [if_pos hyes]

/-- Witness for C9: `lecture.flac` is rejected with no effectful step
reached; `talk.MP3` (case-insensitive) passes the check, as does
`x.mp3/` (pathlib ignores the trailing separator when taking the name). -/
theorem claim_c9_format_check_witness :
    chunkedTranscriptionPrelude "lecture.flac" =
      ([], Except.error UNSUPPORTED_FORMAT_MSG) ∧
    chunkedTranscriptionPrelude "talk.MP3" =
      (["create_openai_client", "prepare_local_audio_file", "probe_audio_metadata"],
        Except.ok "mp3") ∧
    chunkedTranscriptionPrelude "x.mp3/" =
      (["create_openai_client", "prepare_local_audio_file", "probe_audio_metadata"],
        Except.ok "mp3") := by
  refine ⟨(claim_c9_format_check "lecture.flac").1 (by decide), ?_, ?_⟩
  · have h := (claim_c9_format_check "talk.MP3").2 (by decide)
    rw [h]
    have he : extOf "talk.MP3" = "mp3" := by decide
    rw [he]
  · have h := (claim_c9_format_check "x.mp3/").2 (by decide)
    rw [h]
    have he : extOf "x.mp3/" = "mp3" := by decide
    rw [he]

/-- C10: whenever the metadata probe succeeds, the returned metadata has
`duration_ms ≥ 1`: after rejecting absent and nonpositive probed durations,
`duration_ms = max(int(duration_seconds * 1000), 1)`, so a positive duration
below one millisecond yields `duration_ms = 1` by clamping rather than 0 or
a failure. -/
theorem claim_c10_duration_clamped (durationSeconds : Option ℚ)
    (bitRate : Option Nat) (m : AudioMetadata)
    (h : probeAudioMetadata durationSeconds bitRate = Except.ok m) :
    1 ≤ m.durationMs ∧
    ∃ ds, durationSeconds = some ds ∧ 0 < ds ∧
      m.durationMs = max ⌊ds * 1000⌋₊ 1 ∧ (ds * 1000 < 1 → m.durationMs = 1) := by
  cases durationSeconds with
  | none => simp [probeAudioMetadata] at h
  | some ds =>
    simp only [probeAudioMetadata] at h
    by_cases hle : ds ≤ 0
    · rw [if_pos hle] at h
      exact absurd h (by simp)
    · rw [if_neg hle] at h
      injection h with hm
      subst hm
      push_neg at hle
      refine ⟨le_max_right _ _, ds, rfl, hle, rfl, ?_⟩
      intro hsmall
      have hfl : ⌊ds * 1000⌋₊ = 0 := Nat.floor_eq_zero.mpr hsmall
      simp [hfl]

/-- Witness for C10: a probed duration of half a millisecond (1/2000 s)
yields `duration_ms = 1`. -/
theorem claim_c10_duration_clamped_witness :
    1 ≤ (AudioMetadata.mk 1 none).durationMs ∧
    ∃ ds, (some (1 / 2000) : Option ℚ) = some ds ∧ 0 < ds ∧
      (AudioMetadata.mk 1 none).durationMs = max ⌊ds * 1000⌋₊ 1 ∧
      (ds * 1000 < 1 → (AudioMetadata.mk 1 none).durationMs = 1) :=
  claim_c10_duration_clamped (some (1 / 2000)) none ⟨1, none⟩ (by
    unfold probeAudioMetadata
    have h0 : ⌊(1 : ℚ) / 2⌋₊ = 0 := by
      rw [Nat.floor_eq_zero]
      norm_num
    norm_num [h0])
